import Mathlib

/-!
Shallow embedding of the core of the ScalableVectorSearch repository:
the version identifier (src/include/svs/lib/version.h), dataset loading
dispatch (src/include/svs/core/data/io.h), the dataset contract and
dataset copy (src/include/svs/concepts/data.h), the in-place compaction
primitive (src/include/svs/core/compact.h), and the flat exhaustive
search engine (src/include/svs/index/flat/flat.h).

Machine integers (size_t) are modelled as Nat with explicit bounds where
overflow or parsing limits matter; C++ exceptions are modelled as Except;
strings as List Char.  Multi-threaded loops whose iterations write
disjoint locations are order-independent, and are embedded as sequential
folds in ascending index order.
-/

namespace Svs

/-! ## Version identifier (src/include/svs/lib/version.h) -/

/-- Value of a decimal digit character, as in base-10 parsing. -/
def digitVal (c : Char) : Nat := c.toNat - 48

/-- Value of a string of decimal digit characters, most significant first. -/
def digitsVal (l : List Char) : Nat := l.foldl (fun a c => 10 * a + digitVal c) 0

/-- The number of values of the C++ type size_t, through which parse_int is
instantiated in version.h. -/
def sizeTBound : Nat := 2 ^ 64

def parseIntErr : String := "Something went wrong with number parsing!"

/-- Embedding of lib::parse_int over size_t.  It calls std::from_chars, which
consumes the longest leading run of decimal digits: it fails when that run is
empty (invalid_argument) or when the run's value overflows the integer type
(result_out_of_range), and otherwise yields the run's value, ignoring any
trailing characters. -/
def parse_int (view : List Char) : Except String Nat :=
  let digits := view.takeWhile Char.isDigit
  if digits.isEmpty then Except.error parseIntErr
  else if digitsVal digits < sizeTBound then Except.ok (digitsVal digits)
  else Except.error parseIntErr

/-- Split a string at its first dot: some (before, after), or none when the
string holds no dot.  This embeds string_view::find of a dot followed by the
two substr calls around the found position. -/
def splitDot : List Char → Option (List Char × List Char)
  | [] => none
  | c :: rest =>
    if c = '.' then some ([], rest)
    else
      match splitDot rest with
      | none => none
      | some (before, after) => some (c :: before, after)

/-- The version triple of src/include/svs/lib/version.h. -/
structure Version where
  major : Nat
  minor : Nat
  patch : Nat
deriving DecidableEq

def noLeadingVErr : String := "Formatted version string does not begin with a v!"

def malformedErr : String := "Malformed version!"

/-- Embedding of the parsing constructor Version::Version(std::string_view):
require a leading v, find the first dot and parse major from the text before
it, find the second dot and parse minor from the text between, and parse
patch from everything after the second dot. -/
def Version.parse (v : List Char) : Except String Version :=
  match v with
  | [] => Except.error noLeadingVErr
  | c :: rest =>
    if c = 'v' then
      match splitDot rest with
      | none => Except.error malformedErr
      | some (majorText, rest2) =>
        match parse_int majorText with
        | Except.error e => Except.error e
        | Except.ok major =>
          match splitDot rest2 with
          | none => Except.error malformedErr
          | some (minorText, patchText) =>
            match parse_int minorText with
            | Except.error e => Except.error e
            | Except.ok minor =>
              match parse_int patchText with
              | Except.error e => Except.error e
              | Except.ok patch => Except.ok ⟨major, minor, patch⟩
    else Except.error noLeadingVErr

/-- The character of a decimal digit, as the formatter emits it. -/
def digitChar (d : Nat) : Char :=
  if d = 0 then '0' else if d = 1 then '1' else if d = 2 then '2'
  else if d = 3 then '3' else if d = 4 then '4' else if d = 5 then '5'
  else if d = 6 then '6' else if d = 7 then '7' else if d = 8 then '8' else '9'

/-- Decimal digit characters of a number, most significant first: the
decimal rendering a format call produces for an integer argument. -/
def natDigits (n : Nat) : List Char :=
  if _h : n < 10 then [digitChar n]
  else natDigits (n / 10) ++ [digitChar (n % 10)]
decreasing_by exact Nat.div_lt_self (by omega) (by omega)

/-- Embedding of Version::str, which formats "v" followed by the three
components in decimal separated by dots. -/
def Version.str (v : Version) : List Char :=
  'v' :: (natDigits v.major ++ '.' :: (natDigits v.minor ++ '.' :: natDigits v.patch))

/-- Split a string at every dot. -/
def splitAllDots : List Char → List (List Char)
  | [] => [[]]
  | c :: rest =>
    if c = '.' then [] :: splitAllDots rest
    else
      match splitAllDots rest with
      | [] => [[c]]
      | part :: parts => (c :: part) :: parts

/-- The exact grammar the specification claims for version strings: a leading
v, then exactly three dot-separated components, each a nonempty string of
decimal digits. -/
def exactVersionGrammar (l : List Char) : Bool :=
  match l with
  | [] => false
  | c0 :: rest =>
    c0 = 'v' &&
      match splitAllDots rest with
      | [a, b, c] =>
        !a.isEmpty && a.all Char.isDigit && !b.isEmpty && b.all Char.isDigit &&
          !c.isEmpty && c.all Char.isDigit
      | _ => false

/-- A component accepted by parse_int: a nonempty leading digit run whose
value fits in size_t. -/
def acceptedComponent (l : List Char) : Bool :=
  !(l.takeWhile Char.isDigit).isEmpty &&
    decide (digitsVal (l.takeWhile Char.isDigit) < sizeTBound)

/-- The set of strings Version::parse actually accepts: a leading v, a first
and a second dot, and three components (before the first dot, between the
dots, after the second dot) each accepted by parse_int. -/
def looseVersionGrammar (l : List Char) : Bool :=
  match l with
  | [] => false
  | c0 :: rest =>
    c0 = 'v' &&
      match splitDot rest with
      | none => false
      | some (a, rest2) =>
        acceptedComponent a &&
          match splitDot rest2 with
          | none => false
          | some (b, c) => acceptedComponent b && acceptedComponent c

/-! ## Dataset loading dispatch (src/include/svs/core/data/io.h) -/

/-- The three loaders auto_load can dispatch to. -/
inductive LoadedKind where
  | native
  | vecs
  | diskann
deriving DecidableEq

def unknownExtensionErr : String := "Unknown file extension for input file."

/-- Embedding of io::auto_load's dispatch: it tests
filename.ends_with on the strings svs, vecs and bin, in that order, and
throws for a filename matching none of them.  Loading itself is out of
scope; the embedding records which loader is chosen. -/
def auto_load (filename : List Char) : Except String LoadedKind :=
  if ("svs".data).isSuffixOf filename then Except.ok LoadedKind.native
  else if ("vecs".data).isSuffixOf filename then Except.ok LoadedKind.vecs
  else if ("bin".data).isSuffixOf filename then Except.ok LoadedKind.diskann
  else Except.error unknownExtensionErr

/-- The file extension of a filename: the text after the last dot, or none
when the filename holds no dot.  This is the notion the specification's
"dispatched by file extension" sentence describes. -/
def fileExtension : List Char → Option (List Char)
  | [] => none
  | c :: rest =>
    match fileExtension rest with
    | some e => some e
    | none => if c = '.' then some rest else none

/-! ## Dataset contract (src/include/svs/concepts/data.h)

A dataset is a sized container of entries of an abstract value type V (one
entry is one vector handle), together with the uniform dimensionality the
contract exposes through dimensions().  Entry values are opaque here: the
engine and the compaction primitive only move them around or hand them to
the distance functor.  Out-of-range access is undefined behaviour in the
source (no runtime check); the embedding models it by a default value. -/

structure Dataset (V : Type) where
  entries : List V
  dims : Nat
deriving DecidableEq

/-- Number of valid entries, as size(). -/
def Dataset.size {V : Type} (d : Dataset V) : Nat := d.entries.length

/-- Embedding of get_datum(i): the entry at index i (default on the
out-of-range indices whose access the contract leaves undefined). -/
def Dataset.get_datum {V : Type} [Inhabited V] (d : Dataset V) (i : Nat) : V :=
  d.entries.getD i default

/-- Embedding of set_datum(i, v): overwrite entry i in place; size is not
changeable through this interface, and an out-of-range write (undefined in
the source) leaves the embedding's dataset unchanged. -/
def Dataset.set_datum {V : Type} (d : Dataset V) (i : Nat) (v : V) : Dataset V :=
  { d with entries := d.entries.set i v }

def copySizeErr : String := "Source of copy has a size other than the destination."

/-- Embedding of data::copy (src/include/svs/concepts/data.h): throw when the
two sizes differ, otherwise overwrite every destination entry in index order
with the source entry of the same index.  The pair carries the call's outcome
and the state of the output dataset after the call. -/
def copy {V : Type} [Inhabited V] (input output : Dataset V) :
    Except String Unit × Dataset V :=
  if input.size ≠ output.size then (Except.error copySizeErr, output)
  else
    (Except.ok (),
      (List.range input.size).foldl
        (fun acc i => acc.set_datum i (input.get_datum i)) output)

/-! ## Compaction primitive (src/include/svs/core/compact.h) -/

def dimsMismatchErr : String := "Data dims does not match buffer dims."

/-- One window of compact_data over new index range from start to stop: first
copy data.get_datum(new_to_old(start + j)) into buffer slot j for every j
below stop - start, then copy buffer slot j back into data slot start + j.
Each copy loop is a threads::run over a static partition of the window whose
iterations write disjoint slots, so it is embedded in ascending order. -/
def compactWindow {V : Type} [Inhabited V] (new_to_old : List Nat)
    (start stop : Nat) (data buffer : Dataset V) : Dataset V × Dataset V :=
  let width := stop - start
  let buffer2 :=
    (List.range width).foldl
      (fun acc j => acc.set_datum j (data.get_datum (new_to_old.getD (start + j) 0)))
      buffer
  let data2 :=
    (List.range width).foldl
      (fun acc j => acc.set_datum (start + j) (buffer2.get_datum j)) data
  (data2, buffer2)

/-- The while loop of compact_data: windows of size batchsize over the new
indices, stopping once start reaches new_to_old.length.  Fuel bounds the
iteration count; with a positive batchsize the loop advances every round, so
fuel new_to_old.length + 1 is never exhausted. -/
def compactLoop {V : Type} [Inhabited V] (new_to_old : List Nat) (batchsize : Nat) :
    Nat → Nat → Dataset V → Dataset V → Dataset V
  | 0, _, data, _ => data
  | fuel + 1, start, data, buffer =>
    if start < new_to_old.length then
      let stop := min (start + batchsize) new_to_old.length
      let next := compactWindow new_to_old start stop data buffer
      compactLoop new_to_old batchsize fuel stop next.1 next.2
    else data

/-- Embedding of svs::compact_data: check the two dimensions and throw on a
mismatch before touching any entry, then run the window loop with batchsize
buffer.size().  The pair carries the call's outcome and the state of the
data dataset after the call. -/
def compact_data {V : Type} [Inhabited V] (data buffer : Dataset V)
    (new_to_old : List Nat) : Except String Unit × Dataset V :=
  if data.dims ≠ buffer.dims then (Except.error dimsMismatchErr, data)
  else
    (Except.ok (),
      compactLoop new_to_old buffer.size (new_to_old.length + 1) 0 data buffer)

/-- Non-decreasing sequence check, as the is_sorted assertion of
compact_data states the caller contract. -/
def nonDecreasing : List Nat → Bool
  | [] => true
  | [_] => true
  | a :: b :: rest => decide (a ≤ b) && nonDecreasing (b :: rest)

/-- Strictly increasing sequence check: the discipline under which an
in-place compaction window never reads a slot an earlier window rewrote. -/
def strictIncreasing : List Nat → Bool
  | [] => true
  | [_] => true
  | a :: b :: rest => decide (a < b) && strictIncreasing (b :: rest)

/-! ## Flat exhaustive search engine (src/include/svs/index/flat/flat.h)

The engine is generic over the dataset, the query set and the distance
functor: a search only observes them through compute(distance fixed on
query qi, data.get_datum(d)).  The embedding abstracts that composite as a
score function over the query index and the data index, into a score type S
carrying the distance functor's comparator as a linear order with smaller
meaning better (a maximising comparator is this same embedding at the dual
order).  BroadcastDistance and maybe_fix_argument hold per-query
precomputed state and have no observable effect beyond the scores. -/

/-- A neighbor candidate: a dataset id with its computed distance, as
svs::Neighbor of size_t carries id() and distance(). -/
structure Neighbor (S : Type) where
  id : Nat
  distance : S
deriving DecidableEq

/-- Modelled from the spec: the order a BulkInserter's sorting network
realises (inserters.h is not among the covered files).  Candidates order by
the comparator on scores, and ties between equal scores break in favor of
the lower id. -/
def nbLE {S : Type} [LinearOrder S] (a b : Neighbor S) : Prop :=
  a.distance < b.distance ∨ (a.distance = b.distance ∧ a.id ≤ b.id)

instance {S : Type} [LinearOrder S] : DecidableRel (nbLE (S := S)) := by
  intro a b
  unfold nbLE
  infer_instance

instance {S : Type} [LinearOrder S] : IsTotal (Neighbor S) nbLE where
  total a b := by
    unfold nbLE
    rcases lt_trichotomy a.distance b.distance with h | h | h
    · exact Or.inl (Or.inl h)
    · rcases Nat.le_total a.id b.id with h2 | h2
      · exact Or.inl (Or.inr ⟨h, h2⟩)
      · exact Or.inr (Or.inr ⟨h.symm, h2⟩)
    · exact Or.inr (Or.inl h)

instance {S : Type} [LinearOrder S] : IsTrans (Neighbor S) nbLE where
  trans a b c hab hbc := by
    rcases hab with h1 | ⟨e1, i1⟩
    · rcases hbc with h2 | ⟨e2, _⟩
      · exact Or.inl (h1.trans h2)
      · exact Or.inl (e2 ▸ h1)
    · rcases hbc with h2 | ⟨e2, i2⟩
      · exact Or.inl (e1 ▸ h2)
      · exact Or.inr ⟨e1.trans e2, i1.trans i2⟩

instance {S : Type} [LinearOrder S] : IsAntisymm (Neighbor S) nbLE where
  antisymm a b hab hba := by
    rcases hab with h1 | ⟨e1, i1⟩
    · rcases hba with h2 | ⟨e2, _⟩
      · exact absurd h2 (not_lt_of_gt h1)
      · exact absurd e2.symm (ne_of_lt h1)
    · rcases hba with h2 | ⟨_, i2⟩
      · exact absurd e1 (ne_of_gt h2)
      · cases a
        cases b
        simp only [Neighbor.mk.injEq]
        exact ⟨Nat.le_antisymm i1 i2, e1⟩

/-- Modelled from the spec: one BulkInserter insertion into the heap of one
query, a bounded collector that keeps the k best candidates seen so far in
best-first order (inserters.h is not among the covered files).  With the
state held sorted, a conditional replace-worst is the ordered insertion
truncated back to capacity k. -/
def topkInsert {S : Type} [LinearOrder S] (k : Nat) (s : List (Neighbor S))
    (n : Neighbor S) : List (Neighbor S) :=
  (s.orderedInsert nbLE n).take k

/-- Modelled from the spec: lib::div_round_up, the ceiling of a / b. -/
def divRoundUp (a b : Nat) : Nat := (a + b - 1) / b

/-- The search-relevant engine configuration: the thread pool size and the
two batch-size knobs of FlatIndex, where 0 means automatic. -/
structure FlatConfig where
  numThreads : Nat
  dataBatchSize : Nat
  queryBatchSize : Nat

def defaultDataBatchSize : Nat := 100000

/-- Embedding of FlatIndex::compute_data_batch_size: the default batch size
when the knob is automatic, otherwise the knob clamped to the dataset size. -/
def computeDataBatchSize (cfg : FlatConfig) (dataSize : Nat) : Nat :=
  if cfg.dataBatchSize = 0 then defaultDataBatchSize
  else min cfg.dataBatchSize dataSize

/-- Embedding of FlatIndex::compute_query_batch_size: divide the queries
evenly over the threads when the knob is automatic, otherwise the knob. -/
def computeQueryBatchSize (cfg : FlatConfig) (numQueries : Nat) : Nat :=
  if cfg.queryBatchSize = 0 then divRoundUp numQueries cfg.numThreads
  else cfg.queryBatchSize

/-- The batch decomposition both tiling loops produce over indices from
start to total: ranges (start, min total (start + batch)) while start has
not reached total.  Fuel bounds the iteration count; with a positive batch
the loop advances every round, so fuel total + 1 is never exhausted. -/
def batchRangesGo (total batch : Nat) : Nat → Nat → List (Nat × Nat)
  | 0, _ => []
  | fuel + 1, start =>
    if start < total then
      (start, min total (start + batch)) :: batchRangesGo total batch fuel (min total (start + batch))
    else []

/-- The data tiles of FlatIndex::search's while loop (and, with the query
batch size, the chunks of a threads::DynamicPartition). -/
def batchRanges (total batch : Nat) : List (Nat × Nat) :=
  batchRangesGo total batch (total + 1) 0

/-- The ascending index list of a batch range, as threads::UnitRange
iterates it. -/
def rangeIdx (t : Nat × Nat) : List Nat := List.range' t.1 (t.2 - t.1)

/-- Embedding of FlatIndex::search_patch: for each data index of the tile in
ascending order, skip it unless the predicate passes, fetch the datum, and
for each query of the slice insert the scored candidate into that query's
collector.  The collectors of distinct queries are independent components of
the state. -/
def searchPatch {S : Type} [LinearOrder S] (k : Nat) (score : Nat → Nat → S)
    (predicate : Nat → Bool) (dataIdx queryIdx : List Nat)
    (scratch : Nat → List (Neighbor S)) : Nat → List (Neighbor S) :=
  dataIdx.foldl
    (fun st d =>
      if predicate d then
        queryIdx.foldl
          (fun st qi => Function.update st qi (topkInsert k (st qi) ⟨d, score qi d⟩)) st
      else st)
    scratch

/-- Embedding of FlatIndex::search_subset: a threads::DynamicPartition of the
queries into chunks of compute_query_batch_size, each chunk running
search_patch over the chunk's queries and the current data tile.  Chunks of
distinct workers touch disjoint queries, so the run is embedded as a fold
over the chunks in order. -/
def searchSubset {S : Type} [LinearOrder S] (cfg : FlatConfig) (k : Nat)
    (score : Nat → Nat → S) (predicate : Nat → Bool) (numQueries : Nat)
    (dataRange : Nat × Nat) (scratch : Nat → List (Neighbor S)) :
    Nat → List (Neighbor S) :=
  (batchRanges numQueries (computeQueryBatchSize cfg numQueries)).foldl
    (fun st chunk => searchPatch k score predicate (rangeIdx dataRange) (rangeIdx chunk) st)
    scratch

/-- Embedding of FlatIndex::search over dataSize data indices and numQueries
queries: prepare empty collectors, run search_subset over each data tile of
compute_data_batch_size in order, and write each query's finalized
best-first result row back.  The write-back loop fills row qi from collector
qi, so it is embedded as a map over the query indices. -/
def flatSearch {S : Type} [LinearOrder S] (cfg : FlatConfig)
    (score : Nat → Nat → S) (dataSize numQueries k : Nat)
    (predicate : Nat → Bool) : List (List (Neighbor S)) :=
  let tiles := batchRanges dataSize (computeDataBatchSize cfg dataSize)
  let final := tiles.foldl
    (fun st tile => searchSubset cfg k score predicate numQueries tile st)
    (fun _ => [])
  (List.range numQueries).map final

/-- All scored candidates of query qi: every dataset index passing the
predicate, in ascending order, with its score. -/
def searchCandidates {S : Type} [LinearOrder S] (score : Nat → Nat → S)
    (dataSize : Nat) (predicate : Nat → Bool) (qi : Nat) : List (Neighbor S) :=
  ((List.range dataSize).filter predicate).map (fun d => ⟨d, score qi d⟩)

/-- The specification's answer for query qi: the k best candidates under the
comparator, ties broken by lower id, sorted best-first. -/
def kBest {S : Type} [LinearOrder S] (score : Nat → Nat → S) (dataSize : Nat)
    (predicate : Nat → Bool) (k qi : Nat) : List (Neighbor S) :=
  ((searchCandidates score dataSize predicate qi).insertionSort nbLE).take k

/-! ## Lemmas: single writes and folds of disjoint writes -/

theorem set_datum_length {V : Type} (d : Dataset V) (i : Nat) (v : V) :
    (d.set_datum i v).entries.length = d.entries.length := by
  simp [Dataset.set_datum]

theorem get_datum_set_ne {V : Type} [Inhabited V] (d : Dataset V) {i j : Nat}
    (h : i ≠ j) (v : V) : (d.set_datum i v).get_datum j = d.get_datum j := by
  simp only [Dataset.get_datum, Dataset.set_datum, List.getD_eq_getElem?_getD]
  rw [List.getElem?_set_ne h]

theorem get_datum_set_self {V : Type} [Inhabited V] (d : Dataset V) {i : Nat}
    (h : i < d.entries.length) (v : V) : (d.set_datum i v).get_datum i = v := by
  simp only [Dataset.get_datum, Dataset.set_datum, List.getD_eq_getElem?_getD]
  rw [List.getElem?_set_self h]
  rfl

theorem foldSet_length {V : Type} (g : Nat → Nat) (f : Nat → V) (n : Nat)
    (d : Dataset V) :
    ((List.range n).foldl (fun acc j => acc.set_datum (g j) (f j)) d).entries.length
      = d.entries.length := by
  induction n generalizing d with
  | zero => simp
  | succ m ih =>
    rw [List.range_succ, List.foldl_append]
    simp only [List.foldl_cons, List.foldl_nil]
    rw [set_datum_length, ih]

theorem foldSet_skip {V : Type} [Inhabited V] (g : Nat → Nat) (f : Nat → V) (n : Nat)
    (d : Dataset V) (i : Nat) (hi : ∀ j, j < n → g j ≠ i) :
    ((List.range n).foldl (fun acc j => acc.set_datum (g j) (f j)) d).get_datum i
      = d.get_datum i := by
  induction n generalizing d with
  | zero => simp
  | succ m ih =>
    rw [List.range_succ, List.foldl_append]
    simp only [List.foldl_cons, List.foldl_nil]
    rw [get_datum_set_ne _ (hi m (Nat.lt_succ_self m)) _]
    exact ih d (fun j hj => hi j (Nat.lt_succ_of_lt hj))

theorem foldSet_write {V : Type} [Inhabited V] (g : Nat → Nat) (f : Nat → V) (n : Nat)
    (d : Dataset V)
    (hinj : ∀ j1 j2, j1 < n → j2 < n → g j1 = g j2 → j1 = j2)
    (j : Nat) (hj : j < n) (hrange : g j < d.entries.length) :
    ((List.range n).foldl (fun acc j => acc.set_datum (g j) (f j)) d).get_datum (g j)
      = f j := by
  induction n generalizing d with
  | zero => omega
  | succ m ih =>
    rw [List.range_succ, List.foldl_append]
    simp only [List.foldl_cons, List.foldl_nil]
    rcases Nat.lt_or_ge j m with hjm | hjm
    · have hne : g m ≠ g j := fun h =>
        absurd (hinj m j (Nat.lt_succ_self m) (Nat.lt_succ_of_lt hjm) h) (by omega)
      rw [get_datum_set_ne _ hne _]
      exact ih d (fun j1 j2 h1 h2 => hinj j1 j2 (Nat.lt_succ_of_lt h1) (Nat.lt_succ_of_lt h2))
        hjm hrange
    · have hjeq : j = m := by omega
      subst hjeq
      have hlen : g j <
          ((List.range j).foldl (fun acc i => acc.set_datum (g i) (f i)) d).entries.length := by
        rw [foldSet_length]
        exact hrange
      exact get_datum_set_self _ hlen _

/-! ## Claim theorems: dataset copy and compaction errors -/

/-- C10: data::copy throws exactly when the input and output sizes differ,
leaving the output unmodified in that case, and otherwise overwrites every
output entry at an index below the input size with the input entry of the
same index. -/
theorem copy_spec {V : Type} [Inhabited V] (input output : Dataset V) :
    ((copy input output).1 = Except.ok () ↔ input.size = output.size)
    ∧ (input.size ≠ output.size → (copy input output).2 = output)
    ∧ (input.size = output.size → ∀ i, i < input.size →
        (copy input output).2.get_datum i = input.get_datum i) := by
  unfold copy
  by_cases h : input.size = output.size
  · rw [if_neg (by omega)]
    refine ⟨by simp [h], fun hne => absurd h hne, fun _ i hi => ?_⟩
    have hle : i < output.entries.length := by
      show i < output.size
      omega
    exact foldSet_write (fun j => j) (fun j => input.get_datum j) input.size output
      (fun _ _ _ _ e => e) i hi hle
  · rw [if_pos h]
    exact ⟨by simp [h], fun _ => rfl, fun hs => absurd hs h⟩

/-- C6: compact_data raises exactly the dimension-mismatch error, raised if
and only if the data and buffer dimensions differ, and when it is raised no
entry of the data has been modified. -/
theorem compact_data_error_iff {V : Type} [Inhabited V] (data buffer : Dataset V)
    (new_to_old : List Nat) :
    ((compact_data data buffer new_to_old).1 = Except.ok ()
        ↔ data.dims = buffer.dims)
    ∧ (data.dims ≠ buffer.dims → (compact_data data buffer new_to_old).2 = data) := by
  unfold compact_data
  by_cases h : data.dims = buffer.dims
  · rw [if_neg (by omega)]
    exact ⟨by simp [h], fun hne => absurd h hne⟩
  · rw [if_pos h]
    exact ⟨by simp [h], fun _ => rfl⟩

/-! ## Lemmas: the compaction loop -/

theorem compactLoop_length {V : Type} [Inhabited V] (new_to_old : List Nat)
    (bs : Nat) :
    ∀ fuel start (data buffer : Dataset V),
      (compactLoop new_to_old bs fuel start data buffer).entries.length
        = data.entries.length := by
  intro fuel
  induction fuel with
  | zero => intro start data buffer; rfl
  | succ m ih =>
    intro start data buffer
    show (if start < new_to_old.length then _ else data).entries.length = _
    by_cases h : start < new_to_old.length
    · rw [if_pos h, ih]
      unfold compactWindow
      simp only
      rw [foldSet_length]
    · rw [if_neg h]

theorem compactLoop_untouched {V : Type} [Inhabited V] (new_to_old : List Nat)
    (bs : Nat) :
    ∀ fuel start (data buffer : Dataset V) (i : Nat), new_to_old.length ≤ i →
      (compactLoop new_to_old bs fuel start data buffer).get_datum i
        = data.get_datum i := by
  intro fuel
  induction fuel with
  | zero => intro start data buffer i _; rfl
  | succ m ih =>
    intro start data buffer i hi
    show (if start < new_to_old.length then _ else data).get_datum i = _
    by_cases h : start < new_to_old.length
    · rw [if_pos h, ih _ _ _ _ hi]
      unfold compactWindow
      simp only
      exact foldSet_skip _ _ _ _ _ (fun j hj hji => by omega)
    · rw [if_neg h]

/-- C7: with a valid non-decreasing plan of length M at most the dataset
size, compact_data does not resize the dataset and leaves every entry at an
index at or above M unchanged. -/
theorem compact_data_frame {V : Type} [Inhabited V] (data buffer : Dataset V)
    (new_to_old : List Nat) (hmono : nonDecreasing new_to_old = true)
    (hlen : new_to_old.length ≤ data.size)
    (hrange : ∀ x ∈ new_to_old, x < data.size) :
    (compact_data data buffer new_to_old).2.size = data.size
    ∧ ∀ j, new_to_old.length ≤ j →
        (compact_data data buffer new_to_old).2.get_datum j = data.get_datum j := by
  unfold compact_data
  by_cases h : data.dims = buffer.dims
  · rw [if_neg (by omega)]
    exact ⟨compactLoop_length _ _ _ _ _ _, fun j hj => compactLoop_untouched _ _ _ _ _ _ j hj⟩
  · rw [if_pos h]
    exact ⟨rfl, fun _ _ => rfl⟩

/-- Witness for C7 at a concrete instance. -/
theorem compact_data_frame_witness :
    nonDecreasing [0, 2] = true
    ∧ ([0, 2] : List Nat).length ≤ (⟨[(1 : Int), 2, 3], 1⟩ : Dataset Int).size
    ∧ (∀ x ∈ ([0, 2] : List Nat), x < (⟨[(1 : Int), 2, 3], 1⟩ : Dataset Int).size)
    ∧ ((compact_data (⟨[(1 : Int), 2, 3], 1⟩ : Dataset Int) ⟨[0], 1⟩ [0, 2]).2.size
          = (⟨[(1 : Int), 2, 3], 1⟩ : Dataset Int).size
        ∧ ∀ j, ([0, 2] : List Nat).length ≤ j →
            (compact_data (⟨[(1 : Int), 2, 3], 1⟩ : Dataset Int) ⟨[0], 1⟩ [0, 2]).2.get_datum j
              = (⟨[(1 : Int), 2, 3], 1⟩ : Dataset Int).get_datum j) :=
  ⟨by decide, by decide, by decide,
    compact_data_frame ⟨[(1 : Int), 2, 3], 1⟩ ⟨[0], 1⟩ [0, 2] (by decide) (by decide)
      (by decide)⟩

/-! ## Lemmas: version parsing and formatting -/

theorem parse_int_isOk (l : List Char) : (parse_int l).isOk = acceptedComponent l := by
  unfold parse_int acceptedComponent
  by_cases h : (l.takeWhile Char.isDigit).isEmpty
  · simp [h, Except.isOk, Except.toBool]
  · by_cases h2 : digitsVal (l.takeWhile Char.isDigit) < sizeTBound
    · simp [h, h2, Except.isOk, Except.toBool]
    · simp [h, h2, Except.isOk, Except.toBool]

/-- C4 (amended): Version::parse succeeds on exactly the strings of
looseVersionGrammar: a leading v, two dots, and three components whose
leading digit runs are nonempty and fit in size_t; characters after a
component's digit run are ignored rather than rejected. -/
theorem version_parse_accepts_iff (l : List Char) :
    (Version.parse l).isOk = looseVersionGrammar l := by
  cases l with
  | nil => rfl
  | cons c rest =>
    simp only [Version.parse, looseVersionGrammar]
    by_cases hc : c = 'v'
    · simp only [hc]
      rw [if_pos trivial]
      rw [show (decide True) = true from rfl, Bool.true_and]
      cases hsd : splitDot rest with
      | none => rfl
      | some pair =>
        obtain ⟨a, rest2⟩ := pair
        simp only
        have hia := parse_int_isOk a
        cases hpa : parse_int a with
        | error e =>
          rw [hpa] at hia
          simp only [Except.isOk, Except.toBool] at hia
          rw [← hia]
          rfl
        | ok major =>
          rw [hpa] at hia
          simp only [Except.isOk, Except.toBool] at hia
          rw [← hia]
          simp only [Bool.true_and]
          cases hsd2 : splitDot rest2 with
          | none => rfl
          | some pair2 =>
            obtain ⟨b, cc⟩ := pair2
            simp only
            have hib := parse_int_isOk b
            cases hpb : parse_int b with
            | error e =>
              rw [hpb] at hib
              simp only [Except.isOk, Except.toBool] at hib
              rw [← hib]
              rfl
            | ok minor =>
              rw [hpb] at hib
              simp only [Except.isOk, Except.toBool] at hib
              rw [← hib]
              simp only [Bool.true_and]
              have hic := parse_int_isOk cc
              cases hpc : parse_int cc with
              | error e =>
                rw [hpc] at hic
                simp only [Except.isOk, Except.toBool] at hic
                rw [← hic]
                rfl
              | ok patch =>
                rw [hpc] at hic
                simp only [Except.isOk, Except.toBool] at hic
                rw [← hic]
                rfl
    · simp [hc, Except.isOk, Except.toBool]

/-- C4 (counterexample): the input v1.2.3x deviates from the exact grammar
v{major}.{minor}.{patch} (its patch component carries a trailing non-digit),
yet Version::parse accepts it instead of raising a parse error. -/
theorem version_exact_grammar_cex :
    (Version.parse ("v1.2.3x".data)).isOk = true
    ∧ exactVersionGrammar ("v1.2.3x".data) = false
    ∧ Version.parse ("v1.2.3x".data) = Except.ok ⟨1, 2, 3⟩ :=
  ⟨by decide, by decide, rfl⟩

theorem digitChar_isDigit (d : Nat) : (digitChar d).isDigit = true := by
  unfold digitChar
  split_ifs <;> decide

theorem digitChar_ne_dot (d : Nat) : digitChar d ≠ '.' := by
  unfold digitChar
  split_ifs <;> decide

theorem digitVal_digitChar (d : Nat) (h : d < 10) : digitVal (digitChar d) = d := by
  unfold digitChar
  split_ifs with h0 h1 h2 h3 h4 h5 h6 h7 h8
  · rw [h0]; decide
  · rw [h1]; decide
  · rw [h2]; decide
  · rw [h3]; decide
  · rw [h4]; decide
  · rw [h5]; decide
  · rw [h6]; decide
  · rw [h7]; decide
  · rw [h8]; decide
  · have h9 : d = 9 := by omega
    rw [h9]; decide

theorem digitsVal_append_one (l : List Char) (c : Char) :
    digitsVal (l ++ [c]) = 10 * digitsVal l + digitVal c := by
  unfold digitsVal
  rw [List.foldl_append]
  rfl

theorem digitsVal_natDigits (n : Nat) : digitsVal (natDigits n) = n := by
  induction n using Nat.strong_induction_on with
  | _ n ih =>
    unfold natDigits
    by_cases h : n < 10
    · rw [dif_pos h]
      show digitsVal [digitChar n] = n
      have h1 : digitsVal [digitChar n] = 10 * digitsVal [] + digitVal (digitChar n) :=
        digitsVal_append_one [] (digitChar n)
      have h0 : digitsVal ([] : List Char) = 0 := rfl
      rw [h1, digitVal_digitChar n h, h0]
      omega
    · rw [dif_neg h, digitsVal_append_one,
        ih (n / 10) (Nat.div_lt_self (by omega) (by omega)),
        digitVal_digitChar (n % 10) (Nat.mod_lt n (by omega))]
      omega

theorem natDigits_all_digits (n : Nat) :
    ∀ c ∈ natDigits n, c.isDigit = true := by
  induction n using Nat.strong_induction_on with
  | _ n ih =>
    unfold natDigits
    by_cases h : n < 10
    · rw [dif_pos h]
      intro c hc
      rw [List.mem_singleton.mp hc]
      exact digitChar_isDigit n
    · rw [dif_neg h]
      intro c hc
      rcases List.mem_append.mp hc with hc2 | hc2
      · exact ih (n / 10) (Nat.div_lt_self (by omega) (by omega)) c hc2
      · rw [List.mem_singleton.mp hc2]
        exact digitChar_isDigit (n % 10)

theorem natDigits_ne_nil (n : Nat) : natDigits n ≠ [] := by
  unfold natDigits
  by_cases h : n < 10
  · rw [dif_pos h]
    simp
  · rw [dif_neg h]
    simp

theorem dot_not_mem_natDigits (n : Nat) : '.' ∉ natDigits n := by
  intro hmem
  have := natDigits_all_digits n '.' hmem
  exact absurd this (by decide)

theorem takeWhile_of_all {p : Char → Bool} (l : List Char)
    (h : ∀ c ∈ l, p c = true) : l.takeWhile p = l := by
  induction l with
  | nil => rfl
  | cons c t ih =>
    rw [List.takeWhile_cons, h c (List.mem_cons_self c t),
      ih (fun x hx => h x (List.mem_cons_of_mem c hx))]
    simp

theorem parse_int_natDigits (n : Nat) (h : n < sizeTBound) :
    parse_int (natDigits n) = Except.ok n := by
  unfold parse_int
  rw [takeWhile_of_all (natDigits n) (natDigits_all_digits n)]
  rw [if_neg (by simpa [List.isEmpty_iff] using natDigits_ne_nil n)]
  rw [digitsVal_natDigits]
  rw [if_pos h]

theorem splitDot_append (l r : List Char) (h : '.' ∉ l) :
    splitDot (l ++ '.' :: r) = some (l, r) := by
  induction l with
  | nil =>
    show splitDot ('.' :: r) = some ([], r)
    unfold splitDot
    rw [if_pos rfl]
  | cons c t ih =>
    show splitDot (c :: (t ++ '.' :: r)) = some (c :: t, r)
    have hcd : c ≠ '.' := by
      intro he
      subst he
      exact h (List.mem_cons_self _ _)
    unfold splitDot
    rw [if_neg hcd]
    rw [ih (fun hm => h (List.mem_cons_of_mem c hm))]

/-- C9: formatting a version with Version::str and parsing the result with
Version::parse yields the original triple, for every triple representable in
size_t. -/
theorem version_roundtrip (major minor patch : Nat) (hM : major < sizeTBound)
    (hm : minor < sizeTBound) (hp : patch < sizeTBound) :
    Version.parse (Version.str ⟨major, minor, patch⟩)
      = Except.ok ⟨major, minor, patch⟩ := by
  simp only [Version.str, Version.parse]
  rw [if_pos trivial]
  rw [splitDot_append _ _ (dot_not_mem_natDigits major)]
  dsimp only
  rw [parse_int_natDigits major hM]
  dsimp only
  rw [splitDot_append _ _ (dot_not_mem_natDigits minor)]
  dsimp only
  rw [parse_int_natDigits minor hm]
  dsimp only
  rw [parse_int_natDigits patch hp]

/-- Witness for C9 at a concrete triple. -/
theorem version_roundtrip_witness :
    1 < sizeTBound ∧ 2 < sizeTBound ∧ 3 < sizeTBound
    ∧ Version.parse (Version.str ⟨1, 2, 3⟩) = Except.ok ⟨1, 2, 3⟩ :=
  ⟨by decide, by decide, by decide, version_roundtrip 1 2 3 (by decide) (by decide) (by decide)⟩

/-! ## Lemmas: loader dispatch -/

theorem fileExtension_suffix (f e : List Char) (h : fileExtension f = some e) :
    ('.' :: e) <:+ f := by
  induction f with
  | nil => exact absurd h (by simp [fileExtension])
  | cons c rest ih =>
    unfold fileExtension at h
    cases hr : fileExtension rest with
    | some e2 =>
      rw [hr] at h
      simp only [Option.some.injEq] at h
      subst h
      exact (ih hr).trans (List.suffix_cons c rest)
    | none =>
      rw [hr] at h
      by_cases hc : c = '.'
      · rw [if_pos hc] at h
        simp only [Option.some.injEq] at h
        subst h
        subst hc
        exact List.suffix_rfl
      · rw [if_neg hc] at h
        exact absurd h (by simp)

theorem suffixes_comparable {s t f : List Char} (hs : s <:+ f) (ht : t <:+ f)
    (h1 : ¬ s <:+ t) (h2 : ¬ t <:+ s) : False := by
  rcases List.suffix_or_suffix_of_suffix hs ht with h | h
  · exact h1 h
  · exact h2 h

theorem isSuffixOf_of_suffix {s f : List Char} (h : s <:+ f) :
    s.isSuffixOf f = true := by
  rw [List.isSuffixOf_iff_suffix]
  exact h

theorem not_suffix_of_not_isSuffixOf {s f : List Char}
    (h : s.isSuffixOf f = false) : ¬ s <:+ f := by
  intro hs
  rw [isSuffixOf_of_suffix hs] at h
  exact absurd h (by simp)

/-- C8 (counterexample): the filename datasvs has no file extension at all
(it holds no dot), yet auto_load selects the native loader instead of
raising the unknown-extension parse error, because the dispatch tests
ends_with on the bare string svs. -/
theorem auto_load_extension_cex :
    auto_load ("datasvs".data) = Except.ok LoadedKind.native
    ∧ fileExtension ("datasvs".data) = none :=
  ⟨rfl, rfl⟩

/-- C8 (amended): auto_load dispatches on a string-suffix test, in the order
svs, vecs, bin: it succeeds exactly on filenames ending in one of those
three character runs (dot or not), and filenames whose extension really is
.svs, .vecs or .bin do load with the loader the claim names. -/
theorem auto_load_dispatch (f : List Char) :
    ((auto_load f).isOk
        = (("svs".data).isSuffixOf f || ("vecs".data).isSuffixOf f
            || ("bin".data).isSuffixOf f))
    ∧ (fileExtension f = some ("svs".data) → auto_load f = Except.ok LoadedKind.native)
    ∧ (fileExtension f = some ("vecs".data) → auto_load f = Except.ok LoadedKind.vecs)
    ∧ (fileExtension f = some ("bin".data) → auto_load f = Except.ok LoadedKind.diskann) := by
  refine ⟨?_, ?_, ?_, ?_⟩
  · unfold auto_load
    cases h1 : ("svs".data).isSuffixOf f with
    | true => rfl
    | false =>
      cases h2 : ("vecs".data).isSuffixOf f with
      | true => rfl
      | false =>
        cases h3 : ("bin".data).isSuffixOf f with
        | true => rfl
        | false => rfl
  · intro h
    have hsuf := fileExtension_suffix f _ h
    have hsvs : ("svs".data) <:+ f := (List.suffix_cons '.' _).trans hsuf
    unfold auto_load
    rw [if_pos (isSuffixOf_of_suffix hsvs)]
  · intro h
    have hsuf := fileExtension_suffix f _ h
    have hvec : ("vecs".data) <:+ f := (List.suffix_cons '.' _).trans hsuf
    have hsvs : ("svs".data).isSuffixOf f = false := by
      cases hx : ("svs".data).isSuffixOf f with
      | false => rfl
      | true =>
        exact absurd (suffixes_comparable (List.isSuffixOf_iff_suffix.mp hx) hsuf
          (not_suffix_of_not_isSuffixOf rfl) (not_suffix_of_not_isSuffixOf rfl)) id
    unfold auto_load
    rw [if_neg (by simp [hsvs]), if_pos (isSuffixOf_of_suffix hvec)]
  · intro h
    have hsuf := fileExtension_suffix f _ h
    have hbin : ("bin".data) <:+ f := (List.suffix_cons '.' _).trans hsuf
    have hsvs : ("svs".data).isSuffixOf f = false := by
      cases hx : ("svs".data).isSuffixOf f with
      | false => rfl
      | true =>
        exact absurd (suffixes_comparable (List.isSuffixOf_iff_suffix.mp hx) hsuf
          (not_suffix_of_not_isSuffixOf rfl) (not_suffix_of_not_isSuffixOf rfl)) id
    have hvecs : ("vecs".data).isSuffixOf f = false := by
      cases hx : ("vecs".data).isSuffixOf f with
      | false => rfl
      | true =>
        exact absurd (suffixes_comparable (List.isSuffixOf_iff_suffix.mp hx) hsuf
          (not_suffix_of_not_isSuffixOf rfl) (not_suffix_of_not_isSuffixOf rfl)) id
    unfold auto_load
    rw [if_neg (by simp [hsvs]), if_neg (by simp [hvecs]),
      if_pos (isSuffixOf_of_suffix hbin)]

/-! ## Lemmas: compaction correctness -/

theorem strictIncreasing_tail (a b : Nat) (t : List Nat)
    (h : strictIncreasing (a :: b :: t) = true) :
    a < b ∧ strictIncreasing (b :: t) = true := by
  have h2 : (decide (a < b) && strictIncreasing (b :: t)) = true := h
  simp only [Bool.and_eq_true, decide_eq_true_eq] at h2
  exact h2

theorem strictIncreasing_head_add (l : List Nat) (h : strictIncreasing l = true) :
    ∀ j, j < l.length → l.getD 0 0 + j ≤ l.getD j 0 := by
  induction l with
  | nil => intro j hj; simp at hj
  | cons a rest ih =>
    intro j hj
    cases j with
    | zero => simp
    | succ m =>
      cases rest with
      | nil => simp at hj
      | cons b t =>
        obtain ⟨hab, hrest⟩ := strictIncreasing_tail a b t h
        have hm : m < (b :: t).length := by
          simpa using Nat.lt_of_succ_lt_succ hj
        have := ih hrest m hm
        simp only [List.getD_cons_zero, List.getD_cons_succ] at this ⊢
        omega

theorem strictIncreasing_dominance (l : List Nat) (h : strictIncreasing l = true)
    (j : Nat) (hj : j < l.length) : j ≤ l.getD j 0 := by
  have := strictIncreasing_head_add l h j hj
  omega

theorem compactWindow_spec {V : Type} [Inhabited V] (n2o : List Nat)
    (start stop : Nat) (data buffer orig : Dataset V)
    (horig : ∀ i, start ≤ i → data.get_datum i = orig.get_datum i)
    (hprev : ∀ i, i < start → data.get_datum i = orig.get_datum (n2o.getD i 0))
    (hdom : ∀ j, start ≤ j → j < stop → j ≤ n2o.getD j 0)
    (hss : start ≤ stop)
    (hlen : stop ≤ data.entries.length)
    (hbuf : stop - start ≤ buffer.entries.length) :
    ((compactWindow n2o start stop data buffer).1.entries.length
        = data.entries.length)
    ∧ ((compactWindow n2o start stop data buffer).2.entries.length
        = buffer.entries.length)
    ∧ (∀ i, i < stop →
        (compactWindow n2o start stop data buffer).1.get_datum i
          = orig.get_datum (n2o.getD i 0))
    ∧ (∀ i, stop ≤ i →
        (compactWindow n2o start stop data buffer).1.get_datum i
          = orig.get_datum i) := by
  unfold compactWindow
  simp only
  constructor
  · exact foldSet_length _ _ _ _
  constructor
  · exact foldSet_length _ _ _ _
  have hbufval : ∀ j, j < stop - start →
      ((List.range (stop - start)).foldl
          (fun acc j => acc.set_datum j (data.get_datum (n2o.getD (start + j) 0)))
          buffer).get_datum j
        = orig.get_datum (n2o.getD (start + j) 0) := by
    intro j hj
    have hw := foldSet_write (fun j => j)
      (fun j => data.get_datum (n2o.getD (start + j) 0)) (stop - start) buffer
      (fun _ _ _ _ e => e) j hj (by show j < buffer.entries.length; omega)
    rw [hw]
    exact horig _ (le_trans (by omega) (hdom (start + j) (by omega) (by omega)))
  constructor
  · intro i hi
    rcases Nat.lt_or_ge i start with his | his
    · have hskip := foldSet_skip (fun j => start + j)
        (fun j => ((List.range (stop - start)).foldl
          (fun acc j => acc.set_datum j (data.get_datum (n2o.getD (start + j) 0)))
          buffer).get_datum j) (stop - start) data i
        (fun j _ => by show start + j ≠ i; omega)
      simp only at hskip
      rw [hskip]
      exact hprev i his
    · have hj : i - start < stop - start := by omega
      have hw := foldSet_write (fun j => start + j)
        (fun j => ((List.range (stop - start)).foldl
          (fun acc j => acc.set_datum j (data.get_datum (n2o.getD (start + j) 0)))
          buffer).get_datum j) (stop - start) data
        (fun j1 j2 _ _ e => by simp only at e; omega) (i - start) hj
        (by show start + (i - start) < data.entries.length; omega)
      have hieq : start + (i - start) = i := by omega
      simp only at hw
      rw [hieq] at hw
      rw [hw, hbufval (i - start) hj, hieq]
  · intro i hi
    have hskip := foldSet_skip (fun j => start + j)
      (fun j => ((List.range (stop - start)).foldl
        (fun acc j => acc.set_datum j (data.get_datum (n2o.getD (start + j) 0)))
        buffer).get_datum j) (stop - start) data i
      (fun j hj => by show start + j ≠ i; omega)
    simp only at hskip
    rw [hskip]
    exact horig i (by omega)

theorem compactLoop_spec {V : Type} [Inhabited V] (n2o : List Nat) (bs : Nat)
    (hbs : 1 ≤ bs) (orig : Dataset V)
    (hlen : n2o.length ≤ orig.entries.length)
    (hdom : ∀ j, j < n2o.length → j ≤ n2o.getD j 0) :
    ∀ fuel start (data buffer : Dataset V),
      n2o.length ≤ fuel + start →
      bs ≤ buffer.entries.length →
      data.entries.length = orig.entries.length →
      (∀ i, start ≤ i → data.get_datum i = orig.get_datum i) →
      (∀ i, i < start → data.get_datum i = orig.get_datum (n2o.getD i 0)) →
      ∀ j, j < n2o.length →
        (compactLoop n2o bs fuel start data buffer).get_datum j
          = orig.get_datum (n2o.getD j 0) := by
  intro fuel
  induction fuel with
  | zero =>
    intro start data buffer hfuel _ _ _ hprev j hj
    exact hprev j (by omega)
  | succ m ih =>
    intro start data buffer hfuel hbuf hdlen horig hprev j hj
    show (if start < n2o.length then _ else data).get_datum j = _
    by_cases hs : start < n2o.length
    · rw [if_pos hs]
      have hw := compactWindow_spec n2o start (min (start + bs) n2o.length)
        data buffer orig horig hprev
        (fun j2 _ hj2 => hdom j2 (by omega))
        (by omega) (by omega) (by omega)
      obtain ⟨hwlen, hwblen, hwin, hwout⟩ := hw
      exact ih (min (start + bs) n2o.length)
        (compactWindow n2o start (min (start + bs) n2o.length) data buffer).1
        (compactWindow n2o start (min (start + bs) n2o.length) data buffer).2
        (by omega) (by omega) (by omega)
        (fun i hi => hwout i hi)
        (fun i hi => hwin i hi) j hj
    · rw [if_neg hs]
      exact hprev j (by omega)

/-- C3 (counterexample): a merely non-decreasing plan with a duplicate,
here (0, 0, 1) over a dataset of three entries with a capacity-1 scratch
buffer, makes a later window read a slot an earlier window already rewrote:
entry 2 ends as the original entry 0 instead of the original entry 1, so
the claim fails for non-strict plans. -/
theorem compact_data_claim_cex :
    1 ≤ (⟨[(0 : Int)], 1⟩ : Dataset Int).size
    ∧ (⟨[(10 : Int), 20, 30], 1⟩ : Dataset Int).dims
        = (⟨[(0 : Int)], 1⟩ : Dataset Int).dims
    ∧ nonDecreasing [0, 0, 1] = true
    ∧ (∀ x ∈ ([0, 0, 1] : List Nat), x < (⟨[(10 : Int), 20, 30], 1⟩ : Dataset Int).size)
    ∧ ¬ ((compact_data (⟨[(10 : Int), 20, 30], 1⟩ : Dataset Int)
            ⟨[(0 : Int)], 1⟩ [0, 0, 1]).2.get_datum 2
          = (⟨[(10 : Int), 20, 30], 1⟩ : Dataset Int).get_datum
              (([0, 0, 1] : List Nat).getD 2 0)) := by
  refine ⟨by decide, by decide, by decide, by decide, by decide⟩

/-- C3 (amended): for every strictly increasing new_to_old whose entries lie
below the dataset size, and every scratch buffer of positive capacity and
matching dimensions, compact_data leaves at each new index j below M the
entry the dataset originally held at new_to_old(j). -/
theorem compact_data_correct {V : Type} [Inhabited V] (data buffer : Dataset V)
    (new_to_old : List Nat) (hbuf : 1 ≤ buffer.size)
    (hdims : data.dims = buffer.dims)
    (hmono : strictIncreasing new_to_old = true)
    (hrange : ∀ x ∈ new_to_old, x < data.size) :
    ∀ j, j < new_to_old.length →
      (compact_data data buffer new_to_old).2.get_datum j
        = data.get_datum (new_to_old.getD j 0) := by
  intro j hj
  have hdom : ∀ i, i < new_to_old.length → i ≤ new_to_old.getD i 0 :=
    fun i hi => strictIncreasing_dominance new_to_old hmono i hi
  have hmem : ∀ i, i < new_to_old.length → new_to_old.getD i 0 < data.size := by
    intro i hi
    have : new_to_old.getD i 0 ∈ new_to_old := by
      rw [List.getD_eq_getElem _ _ hi]
      exact List.getElem_mem hi
    exact hrange _ this
  have hlen : new_to_old.length ≤ data.entries.length := by
    rcases Nat.eq_zero_or_pos new_to_old.length with hz | hz
    · omega
    · have h1 := hdom (new_to_old.length - 1) (by omega)
      have h2 := hmem (new_to_old.length - 1) (by omega)
      have h3 : new_to_old.length - 1 < data.size := by omega
      show new_to_old.length ≤ data.size
      omega
  unfold compact_data
  rw [if_neg (by omega)]
  exact compactLoop_spec new_to_old buffer.size hbuf data hlen
    (fun i hi => hdom i hi) (new_to_old.length + 1) 0 data buffer
    (by omega) (le_refl _) rfl (fun i _ => rfl) (fun i hi => by omega) j hj

/-- Witness for C3's amended theorem at the specification's compaction
example E3: six entries, plan (0, 2, 3, 5). -/
theorem compact_data_correct_witness :
    1 ≤ (⟨[(0 : Int)], 1⟩ : Dataset Int).size
    ∧ (⟨[(1 : Int), 2, 3, 4, 5, 6], 1⟩ : Dataset Int).dims
        = (⟨[(0 : Int)], 1⟩ : Dataset Int).dims
    ∧ strictIncreasing [0, 2, 3, 5] = true
    ∧ (∀ x ∈ ([0, 2, 3, 5] : List Nat),
        x < (⟨[(1 : Int), 2, 3, 4, 5, 6], 1⟩ : Dataset Int).size)
    ∧ ∀ j, j < ([0, 2, 3, 5] : List Nat).length →
        (compact_data (⟨[(1 : Int), 2, 3, 4, 5, 6], 1⟩ : Dataset Int)
            ⟨[(0 : Int)], 1⟩ [0, 2, 3, 5]).2.get_datum j
          = (⟨[(1 : Int), 2, 3, 4, 5, 6], 1⟩ : Dataset Int).get_datum
              (([0, 2, 3, 5] : List Nat).getD j 0) :=
  ⟨by decide, by decide, by decide, by decide,
    compact_data_correct ⟨[(1 : Int), 2, 3, 4, 5, 6], 1⟩ ⟨[(0 : Int)], 1⟩
      [0, 2, 3, 5] (by decide) (by decide) (by decide) (by decide)⟩

/-! ## Lemmas: bounded top-k insertion equals take-k of a full sort -/

theorem take_orderedInsert_take {α : Type} (r : α → α → Prop) [DecidableRel r] :
    ∀ (s : List α) (k : Nat) (a : α),
      ((s.take k).orderedInsert r a).take k = (s.orderedInsert r a).take k := by
  intro s
  induction s with
  | nil => intro k a; rw [List.take_nil]
  | cons x xs ih =>
    intro k a
    cases k with
    | zero => rfl
    | succ j =>
      show ((x :: xs.take j).orderedInsert r a).take (j + 1)
        = ((x :: xs).orderedInsert r a).take (j + 1)
      unfold List.orderedInsert
      by_cases hr : r a x
      · rw [if_pos hr, if_pos hr]
        simp only [List.take_succ_cons]
        congr 1
        cases j with
        | zero => rfl
        | succ i =>
          simp only [List.take_succ_cons]
          congr 1
          rw [List.take_take]
          congr 1
          omega
      · rw [if_neg hr, if_neg hr]
        simp only [List.take_succ_cons]
        congr 1
        exact ih j a

theorem insertionSort_append_one {α : Type} (r : α → α → Prop) [DecidableRel r]
    [IsTotal α r] [IsTrans α r] [IsAntisymm α r] (l : List α) (a : α) :
    (l ++ [a]).insertionSort r = (l.insertionSort r).orderedInsert r a := by
  have h1 : List.Perm (l ++ [a]) (a :: l) := List.perm_append_singleton a l
  have h2 : List.Perm ((l ++ [a]).insertionSort r) (a :: l) :=
    (List.perm_insertionSort r _).trans h1
  have h3 : List.Perm (a :: l) (a :: l.insertionSort r) :=
    List.Perm.cons a ((List.perm_insertionSort r l).symm)
  have h4 : List.Perm (a :: l.insertionSort r) ((l.insertionSort r).orderedInsert r a) :=
    (List.perm_orderedInsert r a _).symm
  exact List.eq_of_perm_of_sorted (h2.trans (h3.trans h4))
    (List.sorted_insertionSort r _)
    (List.Sorted.orderedInsert a _ (List.sorted_insertionSort r l))

theorem foldl_topkInsert_eq {S : Type} [LinearOrder S] (k : Nat)
    (l : List (Neighbor S)) :
    l.foldl (fun s nb => topkInsert k s nb) [] = (l.insertionSort nbLE).take k := by
  induction l using List.reverseRecOn with
  | nil => simp
  | append_singleton l a ih =>
    rw [List.foldl_append]
    simp only [List.foldl_cons, List.foldl_nil]
    rw [ih]
    unfold topkInsert
    rw [take_orderedInsert_take nbLE (l.insertionSort nbLE) k a]
    rw [insertionSort_append_one]

/-! ## Lemmas: worker slices and tiles decompose per query -/

theorem foldl_update_apply {β : Type} (g : Nat → β → β) (qs : List Nat) :
    ∀ (st : Nat → β), qs.Nodup → ∀ q,
      (qs.foldl (fun st qi => Function.update st qi (g qi (st qi))) st) q
        = if q ∈ qs then g q (st q) else st q := by
  induction qs with
  | nil =>
    intro st _ q
    simp
  | cons x t ih =>
    intro st hq q
    obtain ⟨hx, ht⟩ := List.nodup_cons.mp hq
    simp only [List.foldl_cons]
    rw [ih _ ht q]
    by_cases hqx : q = x
    · subst hqx
      rw [if_neg hx, if_pos (List.mem_cons_self _ _), Function.update_same]
    · have hupd : Function.update st x (g x (st x)) q = st q :=
        Function.update_noteq hqx _ _
      rw [hupd]
      by_cases hqt : q ∈ t
      · rw [if_pos hqt, if_pos (List.mem_cons_of_mem x hqt)]
      · rw [if_neg hqt, if_neg (by simp [hqx, hqt])]

theorem searchPatch_apply {S : Type} [LinearOrder S] (k : Nat)
    (score : Nat → Nat → S) (predicate : Nat → Bool) (dIdx : List Nat) :
    ∀ (qIdx : List Nat) (st : Nat → List (Neighbor S)), qIdx.Nodup → ∀ q,
      searchPatch k score predicate dIdx qIdx st q
        = if q ∈ qIdx then
            (dIdx.filter predicate).foldl
              (fun s d => topkInsert k s ⟨d, score q d⟩) (st q)
          else st q := by
  unfold searchPatch
  induction dIdx with
  | nil =>
    intro qIdx st _ q
    by_cases hmem : q ∈ qIdx
    · rw [if_pos hmem]; rfl
    · rw [if_neg hmem]; rfl
  | cons d rest ih =>
    intro qIdx st hq q
    simp only [List.foldl_cons]
    by_cases hp : predicate d = true
    · rw [if_pos hp]
      rw [ih qIdx _ hq q]
      have hup := foldl_update_apply
        (fun qi s => topkInsert k s ⟨d, score qi d⟩) qIdx st hq q
      simp only at hup
      by_cases hmem : q ∈ qIdx
      · rw [if_pos hmem] at hup ⊢
        rw [if_pos hmem, hup, List.filter_cons, if_pos hp, List.foldl_cons]
      · rw [if_neg hmem] at hup ⊢
        rw [if_neg hmem, hup]
    · rw [if_neg hp]
      rw [ih qIdx st hq q]
      rw [List.filter_cons, if_neg hp]

theorem batchRangesGo_zero (total batch start : Nat) :
    batchRangesGo total batch 0 start = [] := rfl

theorem batchRangesGo_succ (total batch fuel start : Nat) :
    batchRangesGo total batch (fuel + 1) start
      = if start < total then
          (start, min total (start + batch))
            :: batchRangesGo total batch fuel (min total (start + batch))
        else [] := rfl

theorem foldChunks_apply {S : Type} [LinearOrder S] (k : Nat)
    (score : Nat → Nat → S) (predicate : Nat → Bool) (dIdx : List Nat)
    (total c : Nat) (hc : 1 ≤ c) :
    ∀ fuel qstart (st : Nat → List (Neighbor S)) (q : Nat),
      total ≤ fuel + qstart →
      ((batchRangesGo total c fuel qstart).foldl
          (fun st chunk => searchPatch k score predicate dIdx (rangeIdx chunk) st) st) q
        = if qstart ≤ q ∧ q < total then
            (dIdx.filter predicate).foldl
              (fun s d => topkInsert k s ⟨d, score q d⟩) (st q)
          else st q := by
  intro fuel
  induction fuel with
  | zero =>
    intro qstart st q hfuel
    rw [batchRangesGo_zero]
    show st q = _
    rw [if_neg (by omega)]
  | succ m ih =>
    intro qstart st q hfuel
    rw [batchRangesGo_succ]
    by_cases hs : qstart < total
    · rw [if_pos hs]
      rw [List.foldl_cons]
      rw [ih (min total (qstart + c)) _ q (by omega)]
      rw [searchPatch_apply k score predicate dIdx
        (rangeIdx (qstart, min total (qstart + c))) st
        (List.nodup_range' _ _) q]
      have hmem : q ∈ rangeIdx (qstart, min total (qstart + c))
          ↔ qstart ≤ q ∧ q < min total (qstart + c) := by
        unfold rangeIdx
        rw [List.mem_range'_1]
        omega
      by_cases hq : qstart ≤ q ∧ q < min total (qstart + c)
      · rw [if_pos (hmem.mpr hq)]
        rw [if_neg (by omega), if_pos (by omega)]
      · rw [if_neg (fun hm => hq (hmem.mp hm))]
        by_cases hq2 : min total (qstart + c) ≤ q ∧ q < total
        · rw [if_pos hq2, if_pos (by omega)]
        · rw [if_neg hq2, if_neg (by omega)]
    · rw [if_neg hs]
      show st q = _
      rw [if_neg (by omega)]

theorem searchSubset_apply {S : Type} [LinearOrder S] (cfg : FlatConfig) (k : Nat)
    (score : Nat → Nat → S) (predicate : Nat → Bool) (numQueries : Nat)
    (dataRange : Nat × Nat) (st : Nat → List (Neighbor S)) (q : Nat)
    (hc : 1 ≤ computeQueryBatchSize cfg numQueries ∨ numQueries = 0) :
    searchSubset cfg k score predicate numQueries dataRange st q
      = if q < numQueries then
          ((rangeIdx dataRange).filter predicate).foldl
            (fun s d => topkInsert k s ⟨d, score q d⟩) (st q)
        else st q := by
  unfold searchSubset batchRanges
  rcases hc with hc | hc
  · rw [foldChunks_apply k score predicate (rangeIdx dataRange) numQueries
      (computeQueryBatchSize cfg numQueries) hc (numQueries + 1) 0 st q (by omega)]
    by_cases h : q < numQueries
    · rw [if_pos ⟨by omega, h⟩, if_pos h]
    · rw [if_neg (by omega), if_neg h]
  · subst hc
    show st q = _
    rw [if_neg (by omega)]

theorem foldTiles_apply {S : Type} [LinearOrder S] (cfg : FlatConfig) (k : Nat)
    (score : Nat → Nat → S) (predicate : Nat → Bool) (numQueries : Nat)
    (dataSize batch : Nat) (hb : 1 ≤ batch)
    (hc : 1 ≤ computeQueryBatchSize cfg numQueries ∨ numQueries = 0) :
    ∀ fuel dstart (st : Nat → List (Neighbor S)) (q : Nat),
      dataSize ≤ fuel + dstart →
      ((batchRangesGo dataSize batch fuel dstart).foldl
          (fun st tile => searchSubset cfg k score predicate numQueries tile st) st) q
        = if q < numQueries then
            ((List.range' dstart (dataSize - dstart)).filter predicate).foldl
              (fun s d => topkInsert k s ⟨d, score q d⟩) (st q)
          else st q := by
  intro fuel
  induction fuel with
  | zero =>
    intro dstart st q hfuel
    rw [batchRangesGo_zero]
    show st q = _
    have h0 : dataSize - dstart = 0 := by omega
    rw [h0]
    by_cases h : q < numQueries
    · rw [if_pos h]
      rfl
    · rw [if_neg h]
  | succ m ih =>
    intro dstart st q hfuel
    rw [batchRangesGo_succ]
    by_cases hs : dstart < dataSize
    · rw [if_pos hs]
      rw [List.foldl_cons]
      rw [ih (min dataSize (dstart + batch)) _ q (by omega)]
      rw [searchSubset_apply cfg k score predicate numQueries
        (dstart, min dataSize (dstart + batch)) st q hc]
      by_cases h : q < numQueries
      · rw [if_pos h, if_pos h, if_pos h]
        rw [← List.foldl_append, ← List.filter_append]
        have hr : rangeIdx (dstart, min dataSize (dstart + batch))
              ++ List.range' (min dataSize (dstart + batch))
                  (dataSize - min dataSize (dstart + batch))
            = List.range' dstart (dataSize - dstart) := by
          unfold rangeIdx
          have := List.range'_append_1 dstart
            (min dataSize (dstart + batch) - dstart)
            (dataSize - min dataSize (dstart + batch))
          rw [show dstart + (min dataSize (dstart + batch) - dstart)
              = min dataSize (dstart + batch) by omega] at this
          rw [this]
          congr 1
          omega
        rw [hr]
      · rw [if_neg h, if_neg h, if_neg h]
    · rw [if_neg hs]
      show st q = _
      have h0 : dataSize - dstart = 0 := by omega
      rw [h0]
      by_cases h : q < numQueries
      · rw [if_pos h]
        rfl
      · rw [if_neg h]

/-- The normal form of a search: every configuration with a positive worker
count computes, for each query, the k best candidates under the comparator
with ties broken by lower id, sorted best-first. -/
theorem flatSearch_eq_kBest {S : Type} [LinearOrder S] (cfg : FlatConfig)
    (score : Nat → Nat → S) (dataSize numQueries k : Nat)
    (predicate : Nat → Bool) (ht : 1 ≤ cfg.numThreads) :
    flatSearch cfg score dataSize numQueries k predicate
      = (List.range numQueries).map (kBest score dataSize predicate k) := by
  have hc : 1 ≤ computeQueryBatchSize cfg numQueries ∨ numQueries = 0 := by
    unfold computeQueryBatchSize divRoundUp
    by_cases hq : cfg.queryBatchSize = 0
    · rcases Nat.eq_zero_or_pos numQueries with hz | hz
      · right; exact hz
      · left
        rw [if_pos hq]
        have h1 : cfg.numThreads ≤ numQueries + cfg.numThreads - 1 := by omega
        exact (Nat.one_le_div_iff (by omega)).mpr h1
    · left
      rw [if_neg hq]
      omega
  have hb : 1 ≤ computeDataBatchSize cfg dataSize ∨ dataSize = 0 := by
    unfold computeDataBatchSize defaultDataBatchSize
    by_cases hd : cfg.dataBatchSize = 0
    · left
      rw [if_pos hd]
      omega
    · rcases Nat.eq_zero_or_pos dataSize with hz | hz
      · right; exact hz
      · left
        rw [if_neg hd]
        omega
  unfold flatSearch
  apply List.map_congr_left
  intro q hq
  have hqlt : q < numQueries := List.mem_range.mp hq
  rcases hb with hb | hb
  · rw [show batchRanges dataSize (computeDataBatchSize cfg dataSize)
        = batchRangesGo dataSize (computeDataBatchSize cfg dataSize) (dataSize + 1) 0
      from rfl]
    rw [foldTiles_apply cfg k score predicate numQueries dataSize
      (computeDataBatchSize cfg dataSize) hb hc (dataSize + 1) 0
      (fun _ => []) q (by omega)]
    rw [if_pos hqlt]
    have hr0 : dataSize - 0 = dataSize := by omega
    rw [hr0, ← List.range_eq_range']
    rw [← List.foldl_map (fun d => (⟨d, score q d⟩ : Neighbor S))
      (fun s nb => topkInsert k s nb)]
    rw [foldl_topkInsert_eq]
    rfl
  · subst hb
    show (fun _ => ([] : List (Neighbor S))) q = _
    unfold kBest searchCandidates
    rw [show (List.range 0) = ([] : List Nat) from rfl]
    simp

/-- C1: for every dataset, query batch, positive worker count, k and
predicate, the rows search returns are exactly the k best ids under the
distance comparator among the indices passing the predicate, ties between
equal scores broken in favor of the lower id, each row sorted best-first;
each row holds min(k, number of passing indices) neighbors, hence exactly k
of them whenever at least k indices pass. -/
theorem flat_search_exact {S : Type} [LinearOrder S] (cfg : FlatConfig)
    (score : Nat → Nat → S) (dataSize numQueries k : Nat)
    (predicate : Nat → Bool) (ht : 1 ≤ cfg.numThreads) :
    flatSearch cfg score dataSize numQueries k predicate
      = (List.range numQueries).map (kBest score dataSize predicate k)
    ∧ ∀ qi, (kBest score dataSize predicate k qi).length
        = min k ((List.range dataSize).filter predicate).length := by
  refine ⟨flatSearch_eq_kBest cfg score dataSize numQueries k predicate ht, ?_⟩
  intro qi
  have hlen : ((searchCandidates score dataSize predicate qi).insertionSort nbLE).length
      = ((List.range dataSize).filter predicate).length := by
    rw [(List.perm_insertionSort nbLE _).length_eq]
    unfold searchCandidates
    rw [List.length_map]
  unfold kBest
  rw [List.length_take, hlen]

/-- Witness for C1: the specification's example E1 with two worker threads
and automatic batch sizes (squared Euclidean distance as the comparator's
score). -/
theorem flat_search_exact_witness :
    1 ≤ (⟨2, 0, 0⟩ : FlatConfig).numThreads
    ∧ (flatSearch (⟨2, 0, 0⟩ : FlatConfig)
          (fun _ d => ([0, 1, 1, 25, 169].getD d 0 : Int)) 5 1 3 (fun _ => true)
        = (List.range 1).map
            (kBest (fun _ d => ([0, 1, 1, 25, 169].getD d 0 : Int)) 5
              (fun _ => true) 3)
      ∧ ∀ qi, (kBest (fun _ d => ([0, 1, 1, 25, 169].getD d 0 : Int)) 5
            (fun _ => true) 3 qi).length
          = min 3 ((List.range 5).filter (fun _ => true)).length) :=
  ⟨by decide,
    flat_search_exact ⟨2, 0, 0⟩ (fun _ d => ([0, 1, 1, 25, 169].getD d 0 : Int))
      5 1 3 (fun _ => true) (by decide)⟩

/-- C2: for a fixed dataset, query batch, distance, k and predicate, any two
configurations of worker count, data_batch_size and query_batch_size (worker
count positive, as the pool clamps it) produce identical result matrices,
ids and scores both. -/
theorem flat_search_deterministic {S : Type} [LinearOrder S]
    (cfg1 cfg2 : FlatConfig) (score : Nat → Nat → S)
    (dataSize numQueries k : Nat) (predicate : Nat → Bool)
    (h1 : 1 ≤ cfg1.numThreads) (h2 : 1 ≤ cfg2.numThreads) :
    flatSearch cfg1 score dataSize numQueries k predicate
      = flatSearch cfg2 score dataSize numQueries k predicate := by
  rw [flatSearch_eq_kBest cfg1 score dataSize numQueries k predicate h1,
    flatSearch_eq_kBest cfg2 score dataSize numQueries k predicate h2]

/-- Witness for C2: one worker against eight workers with tiny explicit
batch sizes, on the E1 scores. -/
theorem flat_search_deterministic_witness :
    1 ≤ (⟨1, 0, 0⟩ : FlatConfig).numThreads
    ∧ 1 ≤ (⟨8, 2, 1⟩ : FlatConfig).numThreads
    ∧ flatSearch (⟨1, 0, 0⟩ : FlatConfig)
          (fun _ d => ([0, 1, 1, 25, 169].getD d 0 : Int)) 5 2 3 (fun _ => true)
        = flatSearch (⟨8, 2, 1⟩ : FlatConfig)
            (fun _ d => ([0, 1, 1, 25, 169].getD d 0 : Int)) 5 2 3 (fun _ => true) :=
  ⟨by decide, by decide,
    flat_search_deterministic ⟨1, 0, 0⟩ ⟨8, 2, 1⟩
      (fun _ d => ([0, 1, 1, 25, 169].getD d 0 : Int)) 5 2 3 (fun _ => true)
      (by decide) (by decide)⟩

/-! ## Lemmas: the automatic data batch size -/

theorem batchRangesGo_bounds (total batch : Nat) :
    ∀ fuel start t, t ∈ batchRangesGo total batch fuel start →
      t.2 - t.1 ≤ batch ∧ t.2 ≤ total := by
  intro fuel
  induction fuel with
  | zero =>
    intro start t ht
    rw [batchRangesGo_zero] at ht
    exact absurd ht (List.not_mem_nil t)
  | succ m ih =>
    intro start t ht
    rw [batchRangesGo_succ] at ht
    by_cases hs : start < total
    · rw [if_pos hs] at ht
      rcases List.mem_cons.mp ht with h | h
      · subst h
        constructor
        · show min total (start + batch) - start ≤ batch
          omega
        · show min total (start + batch) ≤ total
          omega
      · exact ih _ t h
    · rw [if_neg hs] at ht
      exact absurd ht (List.not_mem_nil t)

/-- C5: with data_batch_size configured as 0 (automatic), the data tile size
search uses is 100,000 clamped by the dataset: compute_data_batch_size
returns 100,000, the first tile of the search loop spans exactly
min(100000, N) indices, and every tile spans at most min(100000, N). -/
theorem auto_data_batch_size (cfg : FlatConfig) (dataSize : Nat)
    (hauto : cfg.dataBatchSize = 0) (hpos : 0 < dataSize) :
    computeDataBatchSize cfg dataSize = 100000
    ∧ (batchRanges dataSize (computeDataBatchSize cfg dataSize)).head?
        = some (0, min 100000 dataSize)
    ∧ ∀ t ∈ batchRanges dataSize (computeDataBatchSize cfg dataSize),
        t.2 - t.1 ≤ min 100000 dataSize := by
  have hcdb : computeDataBatchSize cfg dataSize = 100000 := by
    unfold computeDataBatchSize
    rw [if_pos hauto]
    rfl
  refine ⟨hcdb, ?_, ?_⟩
  · rw [hcdb]
    unfold batchRanges
    rw [batchRangesGo_succ, if_pos hpos]
    rw [List.head?_cons]
    congr 2
    omega
  · intro t ht
    rw [hcdb] at ht
    have := batchRangesGo_bounds dataSize 100000 (dataSize + 1) 0 t ht
    omega

/-- Witness for C5 at a concrete small dataset. -/
theorem auto_data_batch_size_witness :
    (⟨1, 0, 0⟩ : FlatConfig).dataBatchSize = 0
    ∧ 0 < 7
    ∧ (computeDataBatchSize ⟨1, 0, 0⟩ 7 = 100000
        ∧ (batchRanges 7 (computeDataBatchSize ⟨1, 0, 0⟩ 7)).head?
            = some (0, min 100000 7)
        ∧ ∀ t ∈ batchRanges 7 (computeDataBatchSize ⟨1, 0, 0⟩ 7),
            t.2 - t.1 ≤ min 100000 7) :=
  ⟨by decide, by decide, auto_data_batch_size ⟨1, 0, 0⟩ 7 (by decide) (by decide)⟩

end Svs
